import Mathlib

/-!
Verification of the rule-based lexer/parser framework.

This file is a shallow embedding of the core of the repository:
* `common-framework`: `Position`, `Checkpoint`, `StreamingSignal`;
* `lexer-framework`: `Cursor` (which `DefaultContext` wraps, delegating every
  `LexContext` operation to it), the priority-sorted rule engine
  `Lexer::next_token` with its ASCII lookup table, the `Iterator::next`
  progress-checked loop and `tokenize`;
* the historical naive lexer variant in `src/lexer.rs` (no quick-check, no
  EOF early return);
* `parser-framework`: `DefaultContext<Tok>`, `StreamingParseContext<Tok>`,
  `Parser::next_node` / `Parser::parse`, `LazyContext`, and the Pratt engine
  `parse_pratt`;
* `pipeline-core`: `BatchPipeline::run` and `StreamingPipeline::run`.

Rust `&mut` methods are modelled as functions returning the updated state;
fallible operations that `panic!` are modelled with `Option`.  Loops whose
termination depends on rule behaviour are modelled with explicit fuel, with a
`Bool` flag recording whether the loop exited by its own exit condition
(`true`) rather than exhausting fuel.
-/

/-- Models `common_framework::Position`: line/column are 1-indexed, offset is a
byte offset (all `usize`, modelled as `Nat`). -/
structure Position where
  line : Nat
  column : Nat
  offset : Nat
deriving DecidableEq, Repr

/-- Models `Position::new()`. -/
def Position.new : Position := ⟨1, 1, 0⟩

/-- Models `common_framework::Checkpoint`: an index (byte offset for the
lexer, token index for the parser) plus the `Position` at that point.  The
`Cursor`-local `Checkpoint` of `lexer-framework/src/cursor.rs` has the same
two fields (named `current`/`position`) and is represented by this same
structure. -/
structure Checkpoint where
  index : Nat
  position : Position
deriving DecidableEq, Repr

/-- Models `Checkpoint::new`. -/
def Checkpoint.new (index : Nat) (position : Position) : Checkpoint :=
  ⟨index, position⟩

/-- Field-wise boolean equality on `Position`, as generated by Rust
`derive(PartialEq)`. -/
def positionEq (a b : Position) : Bool :=
  a.line == b.line && a.column == b.column && a.offset == b.offset

/-- Models the `derive(PartialEq)` equality of `common_framework::Checkpoint`
(`checkpoint.rs`): both the `index` and the `position` field are compared. -/
def checkpointEq (a b : Checkpoint) : Bool :=
  a.index == b.index && positionEq a.position b.position

/-- Models `char::len_utf8` of Rust: the UTF-8 byte length of a scalar
value. -/
def utf8Len (c : Char) : Nat :=
  if c.toNat < 0x80 then 1
  else if c.toNat < 0x800 then 2
  else if c.toNat < 0x10000 then 3
  else 4

/-- Total UTF-8 byte length of a character list; models `str::len` of the
cursor's buffer. -/
def byteLen (l : List Char) : Nat := (l.map utf8Len).sum

/-- Character found at byte offset `n` of the buffer; models
`self.buffer[self.current..].chars().next()`.  An offset that falls strictly
inside a character's encoding (which would make the Rust slicing panic, and
is unreachable through the public `Cursor` API) is modelled as `none`. -/
def listPeek : List Char → Nat → Option Char
  | [], _ => none
  | c :: cs, n =>
    if n = 0 then some c
    else if utf8Len c ≤ n then listPeek cs (n - utf8Len c)
    else none

/-- Models `lexer_framework::cursor::Cursor`: the shared input buffer, the
current byte offset, and the tracked source position.  `DefaultContext` is a
newtype around `Cursor` whose `LexContext` methods all delegate to it, so the
`Cursor` state is the whole context state. -/
structure Cursor where
  buffer : List Char
  current : Nat
  position : Position
deriving DecidableEq, Repr

/-- Models `Cursor::new` / `DefaultContext::new`. -/
def Cursor.fromInput (input : List Char) : Cursor :=
  ⟨input, 0, Position.new⟩

/-- Models `Cursor::is_eof`: `current >= buffer.len()`. -/
def cursorIsEof (c : Cursor) : Bool := byteLen c.buffer ≤ c.current

/-- Models `Cursor::peek`. -/
def cursorPeek (c : Cursor) : Option Char := listPeek c.buffer c.current

/-- Models `Cursor::advance`: returns the consumed character and the updated
cursor (position updated line/column-wise, byte offsets advanced by the
character's UTF-8 length). -/
def cursorAdvance (c : Cursor) : Option Char × Cursor :=
  if cursorIsEof c then (none, c)
  else
    match cursorPeek c with
    | none => (none, c)
    | some ch =>
      let len := utf8Len ch
      let p := c.position
      let p1 : Position :=
        if ch = '\n' then ⟨p.line + 1, 1, p.offset + len⟩
        else ⟨p.line, p.column + 1, p.offset + len⟩
      (some ch, { c with current := c.current + len, position := p1 })

/-- Models `Cursor::checkpoint` (and thus `DefaultContext::checkpoint`). -/
def cursorCheckpoint (c : Cursor) : Checkpoint := ⟨c.current, c.position⟩

/-- Models `Cursor::restore`. -/
def cursorRestore (c : Cursor) (cp : Checkpoint) : Cursor :=
  { c with current := cp.index, position := cp.position }

/-- Models the `LexingRule` trait object: `try_match` takes the context by
`&mut`, modelled as a function returning the result together with the mutated
cursor; `priority` is an `i32`; `quick_check` maps the lookahead hint to
`Option<bool>`. -/
structure LexingRule (Tok : Type) where
  priority : Int
  quick_check : Option Char → Option Bool
  try_match : Cursor → Option Tok × Cursor

/-- One step of the stable insertion sort: insert `r` in front of the first
element whose priority is not greater than `r`'s. -/
def insertRule {Tok : Type} (r : LexingRule Tok) : List (LexingRule Tok) → List (LexingRule Tok)
  | [] => [r]
  | x :: xs => if r.priority < x.priority then x :: insertRule r xs else r :: x :: xs

/-- Models `sorted_rules.sort_by_key(|rule| Reverse(rule.priority()))` in
`Lexer::new`: a stable sort by descending priority.  A stable sort by a key
is extensionally unique, so this insertion sort is the same function as
Rust's stable `sort_by_key`; the theorems below prove the descending ordering
and the stability. -/
def sortRules {Tok : Type} (rules : List (LexingRule Tok)) : List (LexingRule Tok) :=
  rules.foldr insertRule []

/-- Models the body of the ASCII-lookup construction loop in `Lexer::new`:
`for (idx, rule) in sorted_rules.iter().enumerate() { if
rule.quick_check(Some(ch)) != Some(false) { applicable_indices.push(idx) } }`,
started at index `k`. -/
def applicableIndicesAux {Tok : Type} : List (LexingRule Tok) → Nat → Char → List Nat
  | [], _, _ => []
  | r :: rs, k, ch =>
    if r.quick_check (some ch) ≠ some false then k :: applicableIndicesAux rs (k + 1) ch
    else applicableIndicesAux rs (k + 1) ch

/-- Models the `ascii_lookup` table entry for character `ch` built by
`Lexer::new`: `Some(indices)` when any rule survived the quick-check filter,
`None` otherwise.  The Rust code materialises the 128 entries in an array at
construction; since the entries are a pure function of the sorted rule list
and the character, the table lookup is modelled by recomputing the entry. -/
def asciiLookup {Tok : Type} (rules : List (LexingRule Tok)) (ch : Char) : Option (List Nat) :=
  let l := applicableIndicesAux rules 0 ch
  if l.isEmpty then none else some l

/-- Models the fast-path loop of `Lexer::next_token`: for each candidate
index, take a checkpoint, run `try_match`, return on success, restore and
continue on failure. -/
def runIndexed {Tok : Type} (rules : List (LexingRule Tok)) :
    List Nat → Cursor → Option Tok × Cursor
  | [], ctx => (none, ctx)
  | idx :: rest, ctx =>
    match rules.get? idx with
    | none => runIndexed rules rest ctx
    | some r =>
      let cp := cursorCheckpoint ctx
      match r.try_match ctx with
      | (some tok, c1) => (some tok, c1)
      | (none, c1) => runIndexed rules rest (cursorRestore c1 cp)

/-- Models the slow-path loop of `Lexer::next_token` (non-ASCII lookahead):
per-attempt `quick_check` against the fixed `first_char` hint, then
checkpointed `try_match`. -/
def runSlow {Tok : Type} (hint : Option Char) :
    List (LexingRule Tok) → Cursor → Option Tok × Cursor
  | [], ctx => (none, ctx)
  | r :: rs, ctx =>
    if r.quick_check hint = some false then runSlow hint rs ctx
    else
      let cp := cursorCheckpoint ctx
      match r.try_match ctx with
      | (some tok, c1) => (some tok, c1)
      | (none, c1) => runSlow hint rs (cursorRestore c1 cp)

/-- Models `Lexer::next_token` of `lexer-framework/src/lexer.rs` (the current,
ASCII-lookup-table engine), applied to an already sorted rule list: early
`None` on `is_eof`; ASCII lookahead goes through the precomputed candidate
indices (returning `None` outright when the table entry is `None`); non-ASCII
lookahead goes through the per-attempt quick-check loop; when `peek` yields
nothing the EOF branch runs no rule and the function falls through to
`None`. -/
def nextToken {Tok : Type} (rules : List (LexingRule Tok)) (ctx : Cursor) :
    Option Tok × Cursor :=
  if cursorIsEof ctx then (none, ctx)
  else
    match cursorPeek ctx with
    | some ch =>
      if ch.toNat < 128 then
        match asciiLookup rules ch with
        | some indices => runIndexed rules indices ctx
        | none => (none, ctx)
      else runSlow (some ch) rules ctx
    | none => (none, ctx)

/-- Models `Lexer::next_token` of the historical variant in
`src/lexer.rs` (naive engine): no EOF early return, no quick-check; every
rule is tried in order with checkpoint/restore. -/
def nextTokenNaive {Tok : Type} : List (LexingRule Tok) → Cursor → Option Tok × Cursor
  | [], ctx => (none, ctx)
  | r :: rs, ctx =>
    let cp := cursorCheckpoint ctx
    match r.try_match ctx with
    | (some tok, c1) => (some tok, c1)
    | (none, c1) => nextTokenNaive rs (cursorRestore c1 cp)

/-- Reference specification of first-match-wins: the output of the first rule
in list order whose `try_match` succeeds on the given context (each rule
being tried on that same context, since failures are rolled back). -/
def firstMatchSpec {Tok : Type} : List (LexingRule Tok) → Cursor → Option (Tok × Cursor)
  | [], _ => none
  | r :: rs, ctx =>
    match r.try_match ctx with
    | (some tok, c1) => some (tok, c1)
    | (none, _) => firstMatchSpec rs ctx

/-- Lift the reference result to the engine's result shape: a failed search
yields `None` with the context unchanged. -/
def liftMatch {Tok : Type} (ctx : Cursor) : Option (Tok × Cursor) → Option Tok × Cursor
  | none => (none, ctx)
  | some (tok, c) => (some tok, c)

/-- Models `<Lexer as Iterator>::next`: EOF check, then `next_token` with the
zero-progress guard — a token produced without advancing the byte offset is
reported and dropped (`None`), as is a no-match. -/
def lexerIterNext {Tok : Type} (rules : List (LexingRule Tok)) (ctx : Cursor) :
    Option Tok × Cursor :=
  if cursorIsEof ctx then (none, ctx)
  else
    let off := ctx.current
    match nextToken rules ctx with
    | (some tok, c1) => if c1.current = off then (none, c1) else (some tok, c1)
    | (none, c1) => (none, c1)

/-- Models `Lexer::tokenize` (that is, `Iterator::collect`): repeatedly call
`Iterator::next` until it yields `None`.  The `Bool` result is `true` when
the loop terminated through `next` returning `None` and `false` when the fuel
ran out. -/
def tokenizeFuel {Tok : Type} (rules : List (LexingRule Tok)) :
    Nat → Cursor → List Tok × Cursor × Bool
  | 0, ctx => ([], ctx, false)
  | fuel + 1, ctx =>
    match lexerIterNext rules ctx with
    | (none, c1) => ([], c1, true)
    | (some tok, c1) =>
      let (ts, c2, fl) := tokenizeFuel rules fuel c1
      (tok :: ts, c2, fl)

/-- Models the `ParseContext<Tok>` trait object's method table: the parser
engine, the Pratt engine and the streaming consumer are generic over the
context, so the embedding passes the concrete context's operations as a
record of functions.  `&mut` methods return the updated context. -/
structure ParseCtxOps (Ctx Tok : Type) where
  peek : Ctx → Option Tok
  advance : Ctx → Option Tok × Ctx
  position : Ctx → Position
  is_eof : Ctx → Bool
  token_index : Ctx → Nat
  checkpoint : Ctx → Checkpoint
  restore : Ctx → Checkpoint → Ctx

/-- Models `parser_framework::context::DefaultContext<Tok>`: a materialized
token vector, a cursor index and a position.  Note that
`extract_position_from_token` in the source always returns `None`, so the
position field is never updated from tokens. -/
structure PCtx (Tok : Type) where
  tokens : List Tok
  current : Nat
  position : Position
deriving DecidableEq, Repr

/-- Models `DefaultContext::new` (and `from_token_iter`): the initial
position is `extract_position_from_token(first).unwrap_or_default()`, which
is always the default since the extractor returns `None`. -/
def PCtx.new {Tok : Type} (tokens : List Tok) : PCtx Tok :=
  ⟨tokens, 0, Position.new⟩

/-- The `ParseContext` implementation of `DefaultContext<Tok>`.  `restore`
sets `current` and `position` from the checkpoint and then would re-extract
the position from the token under the new cursor, but the extractor always
returns `None`. -/
def pctxOps (Tok : Type) : ParseCtxOps (PCtx Tok) Tok where
  peek c := c.tokens.get? c.current
  advance c :=
    match c.tokens.get? c.current with
    | none => (none, c)
    | some t => (some t, { c with current := c.current + 1 })
  position c := c.position
  is_eof c := c.tokens.length ≤ c.current
  token_index c := c.current
  checkpoint c := ⟨c.current, c.position⟩
  restore c cp := { c with current := cp.index, position := cp.position }

/-- Models `StreamingParseContext<Tok>` of `parser-framework/src/streaming.rs`:
a growable token buffer fed by `push_token`, a cursor, and a `finished`
flag; `is_eof` holds only when the stream was marked finished and the buffer
is exhausted. -/
structure SPCtx (Tok : Type) where
  tokens : List Tok
  current : Nat
  finished : Bool
  position : Position
deriving DecidableEq, Repr

/-- Models `StreamingParseContext::new`. -/
def SPCtx.new (Tok : Type) : SPCtx Tok := ⟨[], 0, false, Position.new⟩

/-- Models `StreamingParseContext::push_token` (the position extractor
returns `None`, so only the buffer and the flag change). -/
def spPush {Tok : Type} (c : SPCtx Tok) (t : Tok) : SPCtx Tok :=
  { c with tokens := c.tokens ++ [t], finished := false }

/-- Models `StreamingParseContext::mark_finished`. -/
def spMarkFinished {Tok : Type} (c : SPCtx Tok) : SPCtx Tok :=
  { c with finished := true }

/-- The `ParseContext` implementation of `StreamingParseContext<Tok>`. -/
def spctxOps (Tok : Type) : ParseCtxOps (SPCtx Tok) Tok where
  peek c := c.tokens.get? c.current
  advance c :=
    match c.tokens.get? c.current with
    | none => (none, c)
    | some t => (some t, { c with current := c.current + 1 })
  position c := c.position
  is_eof c := c.finished && c.tokens.length ≤ c.current
  token_index c := c.current
  checkpoint c := ⟨c.current, c.position⟩
  restore c cp := { c with current := cp.index, position := cp.position }

/-- Models the `ParsingRule` trait object (`try_parse` by `&mut`, priority,
quick-check on the cloned lookahead token). -/
structure ParsingRule (Ctx Tok Ast : Type) where
  priority : Int
  quick_check : Option Tok → Option Bool
  try_parse : Ctx → Option Ast × Ctx

/-- The rule loop of `Parser::next_node`, with the lookahead token already
cloned: skip on `quick_check == Some(false)`, otherwise checkpointed
`try_parse` with restore on failure. -/
def nextNodeAux {Ctx Tok Ast : Type} (ops : ParseCtxOps Ctx Tok) (cur : Option Tok) :
    List (ParsingRule Ctx Tok Ast) → Ctx → Option Ast × Ctx
  | [], ctx => (none, ctx)
  | r :: rs, ctx =>
    if r.quick_check cur = some false then nextNodeAux ops cur rs ctx
    else
      let cp := ops.checkpoint ctx
      match r.try_parse ctx with
      | (some node, c1) => (some node, c1)
      | (none, c1) => nextNodeAux ops cur rs (ops.restore c1 cp)

/-- Models `Parser::next_node`: peek once (cloned), then run the rule loop.
Unlike the lexer there is no EOF early return and no lookup table. -/
def nextNode {Ctx Tok Ast : Type} (ops : ParseCtxOps Ctx Tok)
    (rules : List (ParsingRule Ctx Tok Ast)) (ctx : Ctx) : Option Ast × Ctx :=
  nextNodeAux ops (ops.peek ctx) rules ctx

/-- Models `Parser::parse`: loop while not EOF; accept a node only when the
token index strictly advanced; halt (with a diagnostic in the source) on a
zero-progress success or a zero-progress no-match; keep looping when a
no-match still advanced the index.  The `Bool` is `true` when the loop ended
through its own conditions rather than running out of fuel. -/
def parseFuel {Ctx Tok Ast : Type} (ops : ParseCtxOps Ctx Tok)
    (rules : List (ParsingRule Ctx Tok Ast)) :
    Nat → Ctx → List Ast × Ctx × Bool
  | 0, ctx => ([], ctx, false)
  | fuel + 1, ctx =>
    if ops.is_eof ctx then ([], ctx, true)
    else
      let before := ops.token_index ctx
      match nextNode ops rules ctx with
      | (some node, c1) =>
        if ops.token_index c1 = before then ([], c1, true)
        else
          let (ns, c2, fl) := parseFuel ops rules fuel c1
          (node :: ns, c2, fl)
      | (none, c1) =>
        if ops.token_index c1 = before then ([], c1, true)
        else parseFuel ops rules fuel c1

/-- Models `parser_framework::lazy_context::LazyContext`: a pull-based source
(the remaining items of the wrapped iterator), a sliding buffer whose first
element has global index `base_index`, the cursor offset relative to the
buffer, the soft window size, and the committed index. -/
structure LazyCtx (Tok : Type) where
  source : List Tok
  buffer : List Tok
  base_index : Nat
  cursor_offset : Nat
  position : Position
  window_size : Nat
  committed_index : Nat
deriving DecidableEq, Repr

/-- Models `LazyContext::new`. -/
def LazyCtx.new {Tok : Type} (source : List Tok) (window_size : Nat) : LazyCtx Tok :=
  ⟨source, [], 0, 0, Position.new, window_size, 0⟩

/-- Models `LazyContext::token_index`. -/
def lazyTokenIndex {Tok : Type} (c : LazyCtx Tok) : Nat :=
  c.base_index + c.cursor_offset

/-- Models `LazyContext::ensure_buffer`: pull from the source until the
buffer holds the element at relative offset `rel` from the cursor, or the
source is exhausted (then `false`). -/
def ensureBuffer {Tok : Type} (c : LazyCtx Tok) (rel : Nat) : Bool × LazyCtx Tok :=
  let needed := c.cursor_offset + rel + 1
  if c.buffer.length ≥ needed then (true, c)
  else
    let k := needed - c.buffer.length
    if c.source.length ≥ k then
      (true, { c with buffer := c.buffer ++ c.source.take k, source := c.source.drop k })
    else
      (false, { c with buffer := c.buffer ++ c.source, source := [] })

/-- Models `LazyContext::maybe_prune`.  Phase 1 runs the `while base_index <
committed_index` loop: it executes `committed_index - base_index` iterations,
each popping the buffer front (a no-op once empty), incrementing
`base_index`, and decrementing `cursor_offset` while positive — i.e. a
saturating subtraction overall.  Phase 2 drops everything farther than
`window_size / 2` behind the cursor. -/
def maybePrune {Tok : Type} (c : LazyCtx Tok) : LazyCtx Tok :=
  let k := c.committed_index - c.base_index
  let c1 : LazyCtx Tok :=
    { c with buffer := c.buffer.drop k, base_index := c.base_index + k,
             cursor_offset := c.cursor_offset - k }
  let keep := c1.window_size / 2
  if keep < c1.cursor_offset then
    let p := c1.cursor_offset - keep
    { c1 with buffer := c1.buffer.drop p, base_index := c1.base_index + p,
              cursor_offset := keep }
  else c1

/-- Models `LazyContext::advance`: ensure the current element is buffered,
clone it, step the cursor, prune. -/
def lazyAdvance {Tok : Type} (c : LazyCtx Tok) : Option Tok × LazyCtx Tok :=
  let c1 := (ensureBuffer c 0).2
  match c1.buffer.get? c1.cursor_offset with
  | some t => (some t, maybePrune { c1 with cursor_offset := c1.cursor_offset + 1 })
  | none => (none, c1)

/-- Models `LazyContext::commit`: raise `committed_index` to the current
absolute index if larger, then prune. -/
def lazyCommit {Tok : Type} (c : LazyCtx Tok) : LazyCtx Tok :=
  maybePrune { c with committed_index := max c.committed_index (lazyTokenIndex c) }

/-- Models `LazyContext::checkpoint`. -/
def lazyCheckpoint {Tok : Type} (c : LazyCtx Tok) : Checkpoint :=
  ⟨lazyTokenIndex c, c.position⟩

/-- Models `LazyContext::restore`: `none` models the two `panic!` branches
(backtracking below `base_index`, or restoring past the buffered future). -/
def lazyRestore {Tok : Type} (c : LazyCtx Tok) (cp : Checkpoint) : Option (LazyCtx Tok) :=
  if cp.index < c.base_index then none
  else
    let newOffset := cp.index - c.base_index
    if c.buffer.length < newOffset then none
    else some { c with cursor_offset := newOffset, position := cp.position }

/-- The operations a caller can perform on a `LazyContext` between taking a
checkpoint and restoring it: `advance`, `commit`, `peek_at` (whose only state
effect is `ensure_buffer`) and a restore to some other checkpoint. -/
inductive LazyOp where
  | adv : LazyOp
  | commit : LazyOp
  | peekAt (n : Nat) : LazyOp
  | restoreTo (cp : Checkpoint) : LazyOp
deriving DecidableEq, Repr

/-- One caller operation on the lazy context; `none` when a restore hits a
fatal (panicking) branch. -/
def lazyStep {Tok : Type} (c : LazyCtx Tok) : LazyOp → Option (LazyCtx Tok)
  | .adv => some (lazyAdvance c).2
  | .commit => some (lazyCommit c)
  | .peekAt n => some (ensureBuffer c n).2
  | .restoreTo cp => lazyRestore c cp

/-- Run a sequence of caller operations, stopping with `none` at the first
fatal restore. -/
def runLazyOps {Tok : Type} : List LazyOp → LazyCtx Tok → Option (LazyCtx Tok)
  | [], c => some c
  | op :: ops, c =>
    match lazyStep c op with
    | none => none
    | some c1 => runLazyOps ops c1

/-- Models the `PrattConfig` trait (field names renamed: `nudPower`,
`ledPower`, `nudParse`, `ledParse` stand for the source's prefix binding
power, infix binding power, prefix parser and infix parser respectively).
The two parse functions receive the engine's re-entrant parse function as a
callback, exactly like the `parser` closure argument in the source. -/
structure PrattCfg (Ctx Tok Ast : Type) where
  nudPower : Tok → Option (Unit × Nat)
  ledPower : Tok → Option (Nat × Nat)
  nudParse : Tok → Ctx → (Ctx → Nat → Option Ast × Ctx) → Option Ast × Ctx
  ledParse : Ast → Tok → Nat → Ctx → (Ctx → Nat → Option Ast × Ctx) → Option Ast × Ctx

mutual

/-- Models `parse_pratt` of `parser-framework/src/pratt.rs`: consume the
first token, parse the prefix part through the config, then run the infix
loop.  The recursion through the config's callbacks is fueled; with enough
fuel this computes exactly what the Rust recursion computes. -/
def parsePratt {Ctx Tok Ast : Type} (ops : ParseCtxOps Ctx Tok)
    (cfg : PrattCfg Ctx Tok Ast) : Nat → Ctx → Nat → Option Ast × Ctx
  | 0, ctx, _ => (none, ctx)
  | fuel + 1, ctx, minBp =>
    match ops.peek ctx with
    | none => (none, ctx)
    | some token =>
      let ctx1 := (ops.advance ctx).2
      let (lres, ctx2) := cfg.nudParse token ctx1 (fun c bp => parsePratt ops cfg fuel c bp)
      match lres with
      | none => (none, ctx2)
      | some left => prattLoop ops cfg fuel left ctx2 minBp

/-- Models the `loop` in `parse_pratt` (step 3 and 4 of the algorithm): peek
the next token, look up its infix binding powers, stop returning the current
left expression when there is none or when `l_bp < min_bp`; otherwise consume
the operator, run the config's infix parser with the right binding power, and
continue with the new left expression; a failed infix parse aborts with
`None`. -/
def prattLoop {Ctx Tok Ast : Type} (ops : ParseCtxOps Ctx Tok)
    (cfg : PrattCfg Ctx Tok Ast) : Nat → Ast → Ctx → Nat → Option Ast × Ctx
  | 0, _, ctx, _ => (none, ctx)
  | fuel + 1, left, ctx, minBp =>
    match ops.peek ctx with
    | none => (some left, ctx)
    | some t =>
      match cfg.ledPower t with
      | none => (some left, ctx)
      | some (lbp, rbp) =>
        if lbp < minBp then (some left, ctx)
        else
          let ctx1 := (ops.advance ctx).2
          let (rres, ctx2) := cfg.ledParse left t rbp ctx1 (fun c bp => parsePratt ops cfg fuel c bp)
          match rres with
          | some left2 => prattLoop ops cfg fuel left2 ctx2 minBp
          | none => (none, ctx2)

end

/-- Models `common_framework::StreamingSignal`. -/
inductive StreamingSignal (Tok Ast : Type) where
  | RequestToken (n : Nat) : StreamingSignal Tok Ast
  | SupplyToken (t : Tok) : StreamingSignal Tok Ast
  | TokenDelivered : StreamingSignal Tok Ast
  | Produced (nodes : List Ast) : StreamingSignal Tok Ast
  | NeedToken (n : Nat) : StreamingSignal Tok Ast
  | Finished (nodes : List Ast) : StreamingSignal Tok Ast
  | Blocked (reason : String) : StreamingSignal Tok Ast
  | EndOfInput : StreamingSignal Tok Ast
  | Abort (reason : String) : StreamingSignal Tok Ast

/-- A component implementing both `Outbound` (`next_signal`, by `&mut`) and
`Inbound` (`handle_signal`, by `&mut`) over its own state type `σ`. -/
structure StreamMachine (σ Tok Ast : Type) where
  next_signal : σ → Option (StreamingSignal Tok Ast) × σ
  handle_signal : σ → StreamingSignal Tok Ast → σ

/-- Models `StreamingPipeline::run`.  Besides the collected AST nodes it
returns the list of signals the driver delivered to the consumer via
`handle_signal` from this point on (used to state abort-delivery counts).
Fuel models the unbounded driver loop; the result at fuel exhaustion is the
accumulator, matching any prefix of a diverging run. -/
def runPipe {σL σP Tok Ast : Type} (L : StreamMachine σL Tok Ast)
    (P : StreamMachine σP Tok Ast) (Pfinish : σP → List Ast × σP) :
    Nat → σL → σP → List Ast → List Ast × List (StreamingSignal Tok Ast)
  | 0, _, _, acc => (acc, [])
  | fuel + 1, ls, ps, acc =>
    match P.next_signal ps with
    | (none, _) => (acc, [])
    | (some sig, ps1) =>
      match sig with
      | .Produced nodes => runPipe L P Pfinish fuel ls ps1 (acc ++ nodes)
      | .NeedToken n =>
        let ls1 := L.handle_signal ls (.RequestToken n)
        match L.next_signal ls1 with
        | (some (.SupplyToken t), ls2) =>
          let ps2 := P.handle_signal ps1 (.SupplyToken t)
          let (res, log) := runPipe L P Pfinish fuel ls2 ps2 acc
          (res, .SupplyToken t :: log)
        | (some .EndOfInput, _) =>
          let ps2 := P.handle_signal ps1 .EndOfInput
          (acc ++ (Pfinish ps2).1, [.EndOfInput])
        | (some (.Blocked r), ls2) =>
          let _ := P.handle_signal ps1 (.Abort r)
          let _ := L.handle_signal ls2 (.Abort r)
          (acc, [.Abort r])
        | (some (.Abort r), ls2) =>
          let _ := P.handle_signal ps1 (.Abort r)
          let _ := L.handle_signal ls2 (.Abort r)
          (acc, [.Abort r])
        | (some _, ls2) => runPipe L P Pfinish fuel ls2 ps1 acc
        | (none, _) =>
          let ps2 := P.handle_signal ps1 .EndOfInput
          (acc ++ (Pfinish ps2).1, [.EndOfInput])
      | .Finished nodes => (acc ++ nodes, [])
      | .Blocked r =>
        let _ := P.handle_signal ps1 (.Abort r)
        let _ := L.handle_signal ls (.Abort r)
        (acc, [.Abort r])
      | .Abort r =>
        let _ := P.handle_signal ps1 (.Abort r)
        let _ := L.handle_signal ls (.Abort r)
        (acc, [.Abort r])
      | _ => runPipe L P Pfinish fuel ls ps1 acc

/-- Models the `Lexer` struct: the sorted rule list stored by `Lexer::new`
(the context is passed to `next_token` explicitly in this embedding, and the
ASCII table is recomputed from the sorted rules by `asciiLookup`). -/
structure Lexer (Tok : Type) where
  rules : List (LexingRule Tok)

/-- Models `Lexer::new`: stable-sort the registered rules by descending
priority. -/
def Lexer.new {Tok : Type} (rules : List (LexingRule Tok)) : Lexer Tok :=
  ⟨sortRules rules⟩

/-- Models `Parser::drain_ready_nodes` of `parser-framework/src/streaming.rs`:
repeatedly call `next_node`, pushing each produced node, stopping on a
no-match or when a node was produced without advancing the token index (the
node is still pushed in that case). -/
def drainFuel {Tok Ast : Type} (rules : List (ParsingRule (SPCtx Tok) Tok Ast)) :
    Nat → SPCtx Tok → List Ast × SPCtx Tok
  | 0, s => ([], s)
  | fuel + 1, s =>
    let before := s.current
    match nextNode (spctxOps Tok) rules s with
    | (none, s1) => ([], s1)
    | (some n, s1) =>
      if s1.current = before then ([n], s1)
      else
        let (ns, s2) := drainFuel rules fuel s1
        (n :: ns, s2)

/-- Models the producer side of the streaming pipeline: the
`Outbound`/`Inbound` implementations for `Lexer` in
`lexer-framework/src/streaming.rs` (`poll_token` is `Iterator::next`; on no
token, `EndOfInput` when the context is at EOF, else no signal; inbound
signals only log). -/
def producerMachine {Tok Ast : Type} (lrules : List (LexingRule Tok)) :
    StreamMachine Cursor Tok Ast where
  next_signal c :=
    match lexerIterNext lrules c with
    | (some t, c1) => (some (.SupplyToken t), c1)
    | (none, c1) => if cursorIsEof c1 then (some .EndOfInput, c1) else (none, c1)
  handle_signal c _ := c

/-- Models the consumer side: the `Outbound` implementation for
`Parser<StreamingParseContext>` (drain, then `Produced`/`Finished`/
`NeedToken(1)`). -/
def consumerNextSignal {Tok Ast : Type} (rules : List (ParsingRule (SPCtx Tok) Tok Ast))
    (drainF : Nat) (s : SPCtx Tok) : Option (StreamingSignal Tok Ast) × SPCtx Tok :=
  let (nodes, s1) := drainFuel rules drainF s
  if nodes.isEmpty then
    if s1.finished && s1.tokens.length ≤ s1.current then (some (.Finished []), s1)
    else (some (.NeedToken 1), s1)
  else (some (.Produced nodes), s1)

/-- Models the `Inbound` implementation for `Parser<StreamingParseContext>`:
`SupplyToken` goes through `TokenConsumer::push_token`, whose returned node
vector is discarded by `handle_signal`; `EndOfInput` and `Abort` mark the
context finished. -/
def consumerHandleSignal {Tok Ast : Type} (rules : List (ParsingRule (SPCtx Tok) Tok Ast))
    (drainF : Nat) (s : SPCtx Tok) : StreamingSignal Tok Ast → SPCtx Tok
  | .SupplyToken t => (drainFuel rules drainF (spPush s t)).2
  | .EndOfInput => spMarkFinished s
  | .Abort _ => spMarkFinished s
  | _ => s

/-- The consumer machine assembled from the two previous definitions. -/
def consumerMachine {Tok Ast : Type} (rules : List (ParsingRule (SPCtx Tok) Tok Ast))
    (drainF : Nat) : StreamMachine (SPCtx Tok) Tok Ast where
  next_signal := consumerNextSignal rules drainF
  handle_signal := consumerHandleSignal rules drainF

/-- Models `TokenConsumer::finish` for `Parser<StreamingParseContext>`:
mark finished, then drain. -/
def consumerFinish {Tok Ast : Type} (rules : List (ParsingRule (SPCtx Tok) Tok Ast))
    (drainF : Nat) (s : SPCtx Tok) : List Ast × SPCtx Tok :=
  drainFuel rules drainF (spMarkFinished s)

/-- The stable insertion step for parser rules (same as `insertRule`, at the
parser's rule type). -/
def insertPRule {Ctx Tok Ast : Type} (r : ParsingRule Ctx Tok Ast) :
    List (ParsingRule Ctx Tok Ast) → List (ParsingRule Ctx Tok Ast)
  | [] => [r]
  | x :: xs => if r.priority < x.priority then x :: insertPRule r xs else r :: x :: xs

/-- Models the stable descending-priority sort in `Parser::new`. -/
def sortPRules {Ctx Tok Ast : Type} (rules : List (ParsingRule Ctx Tok Ast)) :
    List (ParsingRule Ctx Tok Ast) :=
  rules.foldr insertPRule []

/-- Models `BatchPipeline::run`: tokenize the whole input with the lexer
built by `Lexer::new`, then parse the token vector with `Parser::parse`. -/
def batchRun {Tok Ast : Type} (lrules : List (LexingRule Tok))
    (prules : List (ParsingRule (PCtx Tok) Tok Ast)) (input : List Char) (fuel : Nat) :
    List Ast :=
  let toks := (tokenizeFuel (Lexer.new lrules).rules fuel (Cursor.fromInput input)).1
  (parseFuel (pctxOps Tok) (sortPRules prules) fuel (PCtx.new toks)).1

/-- Models `StreamingPipeline::run` applied to a `Lexer` producer over the
same input and a `Parser<StreamingParseContext>` consumer. -/
def streamRun {Tok Ast : Type} (lrules : List (LexingRule Tok))
    (prules : List (ParsingRule (SPCtx Tok) Tok Ast)) (input : List Char) (fuel : Nat) :
    List Ast :=
  (runPipe (producerMachine (Lexer.new lrules).rules) (consumerMachine (sortPRules prules) fuel)
    (consumerFinish (sortPRules prules) fuel) fuel (Cursor.fromInput input) (SPCtx.new Tok) []).1

/-- Token type of the Pratt scenario: the token stream of the input
`1+2*3`. -/
inductive CalcTok where
  | num (n : Nat) : CalcTok
  | plus : CalcTok
  | star : CalcTok
deriving DecidableEq, Repr

/-- Binary operators of the Pratt scenario. -/
inductive CalcOp where
  | add : CalcOp
  | mul : CalcOp
deriving DecidableEq, Repr

/-- Expression trees of the Pratt scenario. -/
inductive CalcExpr where
  | num (n : Nat) : CalcExpr
  | bin (op : CalcOp) (l r : CalcExpr) : CalcExpr
deriving DecidableEq, Repr

/-- The Pratt configuration of the specification's precedence scenario:
number tokens are atoms, `+` has infix binding powers `(10, 11)`, `*` has
`(20, 21)`; the infix parse recursively parses the right operand with the
operator's right binding power as the new minimum, building a binary node. -/
def calcCfg : PrattCfg (PCtx CalcTok) CalcTok CalcExpr where
  nudPower t := match t with | .num _ => some ((), 0) | _ => none
  ledPower t := match t with
    | .plus => some (10, 11)
    | .star => some (20, 21)
    | .num _ => none
  nudParse t ctx _ := match t with
    | .num n => (some (.num n), ctx)
    | _ => (none, ctx)
  ledParse left t rbp ctx recur :=
    match recur ctx rbp with
    | (some right, c1) =>
      (some (.bin (match t with | .star => .mul | _ => .add) left right), c1)
    | (none, c1) => (none, c1)

/-- The token stream of `1+2*3`. -/
def calcToks : List CalcTok := [.num 1, .plus, .num 2, .star, .num 3]

/-- A lexing rule used in concrete witnesses: matches any character,
consumes it, and yields the token `1` with priority `5`. -/
def advRule : LexingRule Nat :=
  { priority := 5
    quick_check := fun _ => none
    try_match := fun c =>
      match cursorAdvance c with
      | (some _, c1) => (some 1, c1)
      | (none, c1) => (none, c1) }

/-- A lexing rule used in concrete witnesses: never matches and leaves the
context untouched. -/
def failRule : LexingRule Nat :=
  { priority := 0, quick_check := fun _ => none, try_match := fun c => (none, c) }

/-- A lexing rule used in concrete counterexamples and witnesses: claims a
match without advancing (the zero-progress bug the engine must detect). -/
def zeroRule : LexingRule Nat :=
  { priority := 0, quick_check := fun _ => none, try_match := fun c => (some 7, c) }

/-- Mirror of the repository's `EofRule` (`src/lexer/rules.rs`): matches
exactly when the context is at end of input, without consuming anything. -/
def eofTokRule : LexingRule Nat :=
  { priority := 0
    quick_check := fun _ => none
    try_match := fun c => if cursorIsEof c then (some 0, c) else (none, c) }

/-- A parsing rule used in witnesses: never matches. -/
def pFailRule {Ctx Tok Ast : Type} : ParsingRule Ctx Tok Ast :=
  { priority := 0, quick_check := fun _ => none, try_parse := fun c => (none, c) }

/-- A parsing rule used in the pipeline comparison: consume one token and
emit it as the node (one node per token). -/
def tokNodeRule {Ctx Tok : Type} (ops : ParseCtxOps Ctx Tok) : ParsingRule Ctx Tok Tok :=
  { priority := 0, quick_check := fun _ => none, try_parse := fun c => ops.advance c }

/-- A parsing rule used in witnesses: claims a node without consuming
tokens. -/
def pZeroRule {Ctx Tok : Type} : ParsingRule Ctx Tok Nat :=
  { priority := 0, quick_check := fun _ => none, try_parse := fun c => (some 7, c) }

/-- A lexing rule for the pipeline comparison: consume one character and
emit it as the token. -/
def charTokRule : LexingRule Char :=
  { priority := 0, quick_check := fun _ => none, try_match := cursorAdvance }

/-- A lexing rule used in witnesses: always matches, bumping the byte
offset by one (a minimal strictly-progressing rule). -/
def bumpRule : LexingRule Nat :=
  { priority := 0
    quick_check := fun _ => none
    try_match := fun c => (some 0, { c with current := c.current + 1 }) }

/-- A parsing rule used in witnesses: always matches, bumping the token
index by one. -/
def pBumpRule {Tok : Type} : ParsingRule (PCtx Tok) Tok Nat :=
  { priority := 0
    quick_check := fun _ => none
    try_parse := fun c => (some 0, { c with current := c.current + 1 }) }

/-- Invariant used for the window-safety argument, relative to the index `K`
of the protected checkpoint: the window base never passes `K`, the cursor
stays inside the buffer, and the buffered range still covers `K`. -/
def LazyInv {Tok : Type} (K : Nat) (c : LazyCtx Tok) : Prop :=
  c.base_index ≤ K ∧ c.cursor_offset ≤ c.buffer.length ∧
    K ≤ c.base_index + c.buffer.length

/-! ## Helper lemmas -/

/-- `Cursor::advance` never touches the shared buffer. -/
theorem cursorAdvance_buffer (c : Cursor) : (cursorAdvance c).2.buffer = c.buffer := by
  unfold cursorAdvance
  split
  · rfl
  · split <;> rfl

/-- Decompose `List.drop` at a cons cell. -/
theorem drop_cons_get {α : Type} {l rest : List α} {r : α} {k : Nat}
    (h : l.drop k = r :: rest) : l.get? k = some r ∧ l.drop (k + 1) = rest := by
  constructor
  · rw [List.get?_eq_getElem?, ← List.head?_drop, h]; rfl
  · have hd : l.drop (k + 1) = (l.drop k).drop 1 := by rw [List.drop_drop]
    rw [hd, h, List.drop_one]
    rfl

/-- A failed attempt in `runIndexed` is rolled back: the final context of a
`None` run keeps the starting index and position. -/
theorem runIndexed_none {Tok : Type} (rules : List (LexingRule Tok)) :
    ∀ (idxs : List Nat) (ctx c1 : Cursor), runIndexed rules idxs ctx = (none, c1) →
      c1.current = ctx.current ∧ c1.position = ctx.position := by
  intro idxs
  induction idxs with
  | nil =>
    intro ctx c1 h
    simp only [runIndexed, Prod.mk.injEq] at h
    rw [h.2]
    exact ⟨rfl, rfl⟩
  | cons idx rest ih =>
    intro ctx c1 h
    rcases hget : rules.get? idx with _ | r
    · simp only [runIndexed, hget] at h
      exact ih ctx c1 h
    · simp only [runIndexed, hget] at h
      rcases htm : r.try_match ctx with ⟨res, cm⟩
      rw [htm] at h
      rcases res with _ | tok
      · have := ih (cursorRestore cm (cursorCheckpoint ctx)) c1 h
        simpa [cursorRestore, cursorCheckpoint] using this
      · exact absurd h (by simp)

/-- A failed attempt in `runSlow` is rolled back likewise. -/
theorem runSlow_none {Tok : Type} (hint : Option Char) :
    ∀ (rs : List (LexingRule Tok)) (ctx c1 : Cursor), runSlow hint rs ctx = (none, c1) →
      c1.current = ctx.current ∧ c1.position = ctx.position := by
  intro rs
  induction rs with
  | nil =>
    intro ctx c1 h
    simp only [runSlow, Prod.mk.injEq] at h
    rw [h.2]
    exact ⟨rfl, rfl⟩
  | cons r rest ih =>
    intro ctx c1 h
    by_cases hqc : r.quick_check hint = some false
    · simp only [runSlow, if_pos hqc] at h
      exact ih ctx c1 h
    · simp only [runSlow, if_neg hqc] at h
      rcases htm : r.try_match ctx with ⟨res, cm⟩
      rw [htm] at h
      rcases res with _ | tok
      · have := ih (cursorRestore cm (cursorCheckpoint ctx)) c1 h
        simpa [cursorRestore, cursorCheckpoint] using this
      · exact absurd h (by simp)

/-- A `next_token` call in which no rule matched keeps the starting byte
offset and position. -/
theorem nextToken_none {Tok : Type} (rules : List (LexingRule Tok)) (ctx c1 : Cursor)
    (h : nextToken rules ctx = (none, c1)) :
    c1.current = ctx.current ∧ c1.position = ctx.position := by
  unfold nextToken at h
  by_cases he : cursorIsEof ctx
  · rw [if_pos he] at h
    injection h with _ h2
    rw [← h2]
    exact ⟨rfl, rfl⟩
  · rw [if_neg he] at h
    rcases hpk : cursorPeek ctx with _ | ch
    · simp only [hpk, Prod.mk.injEq] at h
      rw [← h.2]
      exact ⟨rfl, rfl⟩
    · simp only [hpk] at h
      by_cases ha : ch.toNat < 128
      · rw [if_pos ha] at h
        rcases hl : asciiLookup rules ch with _ | idxs
        · simp only [hl, Prod.mk.injEq] at h
          rw [← h.2]
          exact ⟨rfl, rfl⟩
        · simp only [hl] at h
          exact runIndexed_none rules idxs ctx c1 h
      · rw [if_neg ha] at h
        exact runSlow_none (some ch) rules ctx c1 h

/-- A `Parser::next_node` rule loop (over `DefaultContext`) in which every
tried rule failed keeps the starting token index and position. -/
theorem nextNodeAux_none {Tok Ast : Type} (cur : Option Tok) :
    ∀ (rules : List (ParsingRule (PCtx Tok) Tok Ast)) (ctx c1 : PCtx Tok),
      nextNodeAux (pctxOps Tok) cur rules ctx = (none, c1) →
      c1.current = ctx.current ∧ c1.position = ctx.position := by
  intro rules
  induction rules with
  | nil =>
    intro ctx c1 h
    simp only [nextNodeAux, Prod.mk.injEq] at h
    rw [← h.2]
    exact ⟨rfl, rfl⟩
  | cons r rest ih =>
    intro ctx c1 h
    by_cases hqc : r.quick_check cur = some false
    · simp only [nextNodeAux, if_pos hqc] at h
      exact ih ctx c1 h
    · simp only [nextNodeAux, if_neg hqc] at h
      rcases htm : r.try_parse ctx with ⟨res, cm⟩
      rw [htm] at h
      rcases res with _ | node
      · have := ih ((pctxOps Tok).restore cm ((pctxOps Tok).checkpoint ctx)) c1 h
        simpa [pctxOps] using this
      · exact absurd h (by simp)

/-- `Parser::next_node` (over `DefaultContext`) with no matching rule keeps
the starting token index and position. -/
theorem nextNode_none {Tok Ast : Type} (rules : List (ParsingRule (PCtx Tok) Tok Ast))
    (ctx c1 : PCtx Tok) (h : nextNode (pctxOps Tok) rules ctx = (none, c1)) :
    c1.current = ctx.current ∧ c1.position = ctx.position :=
  nextNodeAux_none _ rules ctx c1 h

/-! ## Claim theorems -/

/-- C2: during `Lexer::next_token` and `Parser::next_node`, every rule
attempt that returns `None` is rolled back to the checkpoint taken just
before it, so the context's index (byte offset / token index) and position
after the attempt equal their values before it; consequently a
`next_token`/`next_node` call in which no rule matches leaves the context's
index and position unchanged. -/
theorem claim_C2_transactional_backtracking {Tok Ast : Type} :
    (∀ (r : LexingRule Tok) (ctx cm : Cursor), r.try_match ctx = (none, cm) →
      (cursorRestore cm (cursorCheckpoint ctx)).current = ctx.current ∧
      (cursorRestore cm (cursorCheckpoint ctx)).position = ctx.position) ∧
    (∀ (rules : List (LexingRule Tok)) (ctx c1 : Cursor),
      nextToken rules ctx = (none, c1) →
      c1.current = ctx.current ∧ c1.position = ctx.position) ∧
    (∀ (r : ParsingRule (PCtx Tok) Tok Ast) (ctx cm : PCtx Tok), r.try_parse ctx = (none, cm) →
      ((pctxOps Tok).restore cm ((pctxOps Tok).checkpoint ctx)).current = ctx.current ∧
      ((pctxOps Tok).restore cm ((pctxOps Tok).checkpoint ctx)).position = ctx.position) ∧
    (∀ (rules : List (ParsingRule (PCtx Tok) Tok Ast)) (ctx c1 : PCtx Tok),
      nextNode (pctxOps Tok) rules ctx = (none, c1) →
      c1.current = ctx.current ∧ c1.position = ctx.position) := by
  refine ⟨?_, ?_, ?_, ?_⟩
  · intro r ctx cm _
    exact ⟨rfl, rfl⟩
  · intro rules ctx c1 h
    exact nextToken_none rules ctx c1 h
  · intro r ctx cm _
    exact ⟨rfl, rfl⟩
  · intro rules ctx c1 h
    exact nextNode_none rules ctx c1 h

/-- Witness for C2: a concrete never-matching rule run through both engines
on concrete contexts. -/
theorem claim_C2_witness :
    nextToken [failRule] (Cursor.fromInput ['a']) = (none, Cursor.fromInput ['a']) ∧
    nextNode (pctxOps Nat) [(pFailRule : ParsingRule (PCtx Nat) Nat Nat)] (PCtx.new [4]) = (none, PCtx.new [4]) ∧
    ((Cursor.fromInput ['a']).current = (Cursor.fromInput ['a']).current ∧
      (Cursor.fromInput ['a']).position = (Cursor.fromInput ['a']).position) ∧
    ((PCtx.new [4]).current = (PCtx.new ([4] : List Nat)).current ∧
      (PCtx.new [4]).position = (PCtx.new ([4] : List Nat)).position) := by
  refine ⟨by rfl, by rfl, ?_, ?_⟩
  · exact (@claim_C2_transactional_backtracking Nat Nat).2.1
      [failRule] _ _ (by rfl)
  · exact (@claim_C2_transactional_backtracking Nat Nat).2.2.2
      [pFailRule] _ _ (by rfl)

/-- C10: when the context reports end of input, `Lexer::next_token` returns
`None` immediately, for every rule list — no rule's `quick_check` or
`try_match` can influence the result, so a rule that matches only at EOF can
never produce a token through the matching loop.  The same happens in the
dead EOF branch, when `peek` yields no character while `is_eof` is false. -/
theorem claim_C10_eof_returns_none {Tok : Type} (rules : List (LexingRule Tok)) (ctx : Cursor)
    (h : cursorIsEof ctx = true ∨ cursorPeek ctx = none) :
    nextToken rules ctx = (none, ctx) := by
  unfold nextToken
  rcases h with h | h
  · simp [h]
  · by_cases he : cursorIsEof ctx <;> simp [he, h]

/-- Witness for C10: the EOF-matching rule `eofTokRule` (a mirror of the
repository's `EofRule`) produces nothing through `next_token` on an
exhausted context. -/
theorem claim_C10_witness :
    nextToken [eofTokRule] (Cursor.fromInput []) = (none, Cursor.fromInput []) :=
  claim_C10_eof_returns_none [eofTokRule] (Cursor.fromInput []) (Or.inl (by decide))

/-- C9 counterexample: the claim says checkpoints with equal indices are
equal regardless of position, but the `derive(PartialEq)` equality of
`Checkpoint` compares the position too: two checkpoints at index `0` with
different column positions are unequal. -/
theorem claim_C9_counterexample :
    checkpointEq (Checkpoint.new 0 ⟨1, 1, 0⟩) (Checkpoint.new 0 ⟨1, 2, 0⟩) = false := by
  decide

/-- C9 amended: `Checkpoint` equality is full structural equality — two
checkpoints are equal exactly when both the index and the stored position
agree (so equal indices alone do not suffice). -/
theorem claim_C9_structural_equality (a b : Checkpoint) :
    checkpointEq a b = true ↔ a.index = b.index ∧ a.position = b.position := by
  rcases a with ⟨ia, la, ca, oa⟩
  rcases b with ⟨ib, lb, cb, ob⟩
  simp [checkpointEq, positionEq, Bool.and_eq_true, beq_iff_eq, Position.mk.injEq]
  tauto

/-- Witness for C9 (amended): structural equality evaluated at concrete
checkpoints. -/
theorem claim_C9_witness :
    checkpointEq (Checkpoint.new 3 Position.new) (Checkpoint.new 3 Position.new) = true :=
  (claim_C9_structural_equality _ _).mpr ⟨rfl, rfl⟩

/-- A successful `runIndexed` pass originates from some rule of the list,
applied at a context with the starting index. -/
theorem runIndexed_some {Tok : Type} (rules : List (LexingRule Tok)) :
    ∀ (idxs : List Nat) (ctx c1 : Cursor) (t : Tok),
      runIndexed rules idxs ctx = (some t, c1) →
      ∃ r ∈ rules, ∃ c' : Cursor, c'.current = ctx.current ∧ r.try_match c' = (some t, c1) := by
  intro idxs
  induction idxs with
  | nil =>
    intro ctx c1 t h
    exact absurd h (by simp [runIndexed])
  | cons idx rest ih =>
    intro ctx c1 t h
    rcases hget : rules.get? idx with _ | r
    · simp only [runIndexed, hget] at h
      exact ih ctx c1 t h
    · simp only [runIndexed, hget] at h
      rcases htm : r.try_match ctx with ⟨res, cm⟩
      rw [htm] at h
      rcases res with _ | tok
      · obtain ⟨r', hr', c', hc', htm'⟩ := ih (cursorRestore cm (cursorCheckpoint ctx)) c1 t h
        exact ⟨r', hr', c', by simpa [cursorRestore, cursorCheckpoint] using hc', htm'⟩
      · simp only [Prod.mk.injEq, Option.some.injEq] at h
        obtain ⟨h1, h2⟩ := h
        subst h1; subst h2
        exact ⟨r, List.get?_mem hget, ctx, rfl, htm⟩

/-- A successful `runSlow` pass likewise originates from some rule of the
list. -/
theorem runSlow_some {Tok : Type} (hint : Option Char) :
    ∀ (rs : List (LexingRule Tok)) (ctx c1 : Cursor) (t : Tok),
      runSlow hint rs ctx = (some t, c1) →
      ∃ r ∈ rs, ∃ c' : Cursor, c'.current = ctx.current ∧ r.try_match c' = (some t, c1) := by
  intro rs
  induction rs with
  | nil =>
    intro ctx c1 t h
    exact absurd h (by simp [runSlow])
  | cons r rest ih =>
    intro ctx c1 t h
    by_cases hqc : r.quick_check hint = some false
    · simp only [runSlow, if_pos hqc] at h
      obtain ⟨r', hr', c', hc', htm'⟩ := ih ctx c1 t h
      exact ⟨r', List.mem_cons_of_mem r hr', c', hc', htm'⟩
    · simp only [runSlow, if_neg hqc] at h
      rcases htm : r.try_match ctx with ⟨res, cm⟩
      rw [htm] at h
      rcases res with _ | tok
      · obtain ⟨r', hr', c', hc', htm'⟩ := ih (cursorRestore cm (cursorCheckpoint ctx)) c1 t h
        exact ⟨r', List.mem_cons_of_mem r hr',
          c', by simpa [cursorRestore, cursorCheckpoint] using hc', htm'⟩
      · simp only [Prod.mk.injEq, Option.some.injEq] at h
        obtain ⟨h1, h2⟩ := h
        subst h1; subst h2
        exact ⟨r, List.mem_cons_self r rest, ctx, rfl, htm⟩

/-- A successful `next_token` originates from some rule of the list, applied
at a context with the starting byte offset. -/
theorem nextToken_some {Tok : Type} (rules : List (LexingRule Tok)) (ctx c1 : Cursor) (t : Tok)
    (h : nextToken rules ctx = (some t, c1)) :
    ∃ r ∈ rules, ∃ c' : Cursor, c'.current = ctx.current ∧ r.try_match c' = (some t, c1) := by
  unfold nextToken at h
  by_cases he : cursorIsEof ctx
  · rw [if_pos he] at h
    exact absurd h (by simp)
  · rw [if_neg he] at h
    rcases hpk : cursorPeek ctx with _ | ch
    · simp only [hpk] at h
      exact absurd h (by simp)
    · simp only [hpk] at h
      by_cases ha : ch.toNat < 128
      · rw [if_pos ha] at h
        rcases hl : asciiLookup rules ch with _ | idxs
        · simp only [hl] at h
          exact absurd h (by simp)
        · simp only [hl] at h
          exact runIndexed_some rules idxs ctx c1 t h
      · rw [if_neg ha] at h
        exact runSlow_some (some ch) rules ctx c1 t h

/-- A successful `next_node` rule-loop pass originates from some rule of the
list, applied at a context with the starting token index. -/
theorem nextNodeAux_some {Tok Ast : Type} (cur : Option Tok) :
    ∀ (rules : List (ParsingRule (PCtx Tok) Tok Ast)) (ctx c1 : PCtx Tok) (n : Ast),
      nextNodeAux (pctxOps Tok) cur rules ctx = (some n, c1) →
      ∃ r ∈ rules, ∃ c' : PCtx Tok, c'.current = ctx.current ∧ r.try_parse c' = (some n, c1) := by
  intro rules
  induction rules with
  | nil =>
    intro ctx c1 n h
    exact absurd h (by simp [nextNodeAux])
  | cons r rest ih =>
    intro ctx c1 n h
    by_cases hqc : r.quick_check cur = some false
    · simp only [nextNodeAux, if_pos hqc] at h
      obtain ⟨r', hr', c', hc', htm'⟩ := ih ctx c1 n h
      exact ⟨r', List.mem_cons_of_mem r hr', c', hc', htm'⟩
    · simp only [nextNodeAux, if_neg hqc] at h
      rcases htm : r.try_parse ctx with ⟨res, cm⟩
      rw [htm] at h
      rcases res with _ | node
      · obtain ⟨r', hr', c', hc', htm'⟩ :=
          ih ((pctxOps Tok).restore cm ((pctxOps Tok).checkpoint ctx)) c1 n h
        exact ⟨r', List.mem_cons_of_mem r hr', c', by simpa [pctxOps] using hc', htm'⟩
      · simp only [Prod.mk.injEq, Option.some.injEq] at h
        obtain ⟨h1, h2⟩ := h
        subst h1; subst h2
        exact ⟨r, List.mem_cons_self r rest, ctx, rfl, htm⟩

/-- A successful `next_token` implies the context was not at EOF. -/
theorem nextToken_some_not_eof {Tok : Type} (rules : List (LexingRule Tok)) (ctx c1 : Cursor)
    (t : Tok) (h : nextToken rules ctx = (some t, c1)) : cursorIsEof ctx = false := by
  by_contra hne
  have he : cursorIsEof ctx = true := by
    cases hx : cursorIsEof ctx
    · exact absurd hx hne
    · rfl
  rw [nextToken, if_pos he] at h
  exact absurd h (by simp)

/-- C5: the collecting loops halt on a zero-progress success instead of
looping: a token produced without advancing the byte offset makes
`Iterator::next` report `None` (the token is not accepted) and `tokenize`
stop at once; a node produced without advancing the token index makes
`Parser::parse` stop without accepting it.  Under strict rule progress,
every accepted output of `Iterator::next` / `next_node` is preceded by a
strict increase of the index. -/
theorem claim_C5_zero_progress_halt {Tok Ast : Type} :
    (∀ (rules : List (LexingRule Tok)) (ctx c1 : Cursor) (t : Tok) (fuel : Nat),
      nextToken rules ctx = (some t, c1) → c1.current = ctx.current →
      lexerIterNext rules ctx = (none, c1) ∧
      tokenizeFuel rules (fuel + 1) ctx = ([], c1, true)) ∧
    (∀ (rules : List (ParsingRule (PCtx Tok) Tok Ast)) (ctx c1 : PCtx Tok) (n : Ast) (fuel : Nat),
      (pctxOps Tok).is_eof ctx = false →
      nextNode (pctxOps Tok) rules ctx = (some n, c1) → c1.current = ctx.current →
      parseFuel (pctxOps Tok) rules (fuel + 1) ctx = ([], c1, true)) ∧
    (∀ rules : List (LexingRule Tok),
      (∀ r ∈ rules, ∀ (c c' : Cursor) (t : Tok),
        r.try_match c = (some t, c') → c.current < c'.current) →
      ∀ (ctx c1 : Cursor) (t : Tok),
        lexerIterNext rules ctx = (some t, c1) → ctx.current < c1.current) ∧
    (∀ rules : List (ParsingRule (PCtx Tok) Tok Ast),
      (∀ r ∈ rules, ∀ (c c' : PCtx Tok) (n : Ast),
        r.try_parse c = (some n, c') → c.current < c'.current) →
      ∀ (ctx c1 : PCtx Tok) (n : Ast),
        nextNode (pctxOps Tok) rules ctx = (some n, c1) → ctx.current < c1.current) := by
  refine ⟨?_, ?_, ?_, ?_⟩
  · intro rules ctx c1 t fuel h hz
    have hne := nextToken_some_not_eof rules ctx c1 t h
    have hiter : lexerIterNext rules ctx = (none, c1) := by
      simp [lexerIterNext, hne, h, hz]
    refine ⟨hiter, ?_⟩
    rw [tokenizeFuel, hiter]
  · intro rules ctx c1 n fuel hne h hz
    have hne' : ¬((pctxOps Tok).is_eof ctx = true) := by
      rw [hne]; exact Bool.false_ne_true
    rw [parseFuel, if_neg hne']
    have hz' : (pctxOps Tok).token_index c1 = (pctxOps Tok).token_index ctx := hz
    simp only [h]
    rw [if_pos hz']
  · intro rules hprog ctx c1 t h
    by_cases he : cursorIsEof ctx
    · rw [lexerIterNext, if_pos he] at h
      exact absurd h (by simp)
    · rcases hnt : nextToken rules ctx with ⟨res, cx⟩
      simp only [lexerIterNext, if_neg he, hnt] at h
      rcases res with _ | t'
      · exact absurd h (by simp)
      · by_cases hz : cx.current = ctx.current
        · simp [hz] at h
        · simp [hz] at h
          obtain ⟨h1, h2⟩ := h
          obtain ⟨r, hr, c', hc', htm⟩ := nextToken_some rules ctx cx t' hnt
          have := hprog r hr c' cx t' htm
          rw [← h2]
          omega
  · intro rules hprog ctx c1 n h
    obtain ⟨r, hr, c', hc', htm⟩ := nextNodeAux_some _ rules ctx c1 n h
    have := hprog r hr c' c1 n htm
    omega

/-- Witness for C5: a zero-progress success (`zeroRule` / `pZeroRule`) is
rejected and the loops halt; a strictly-progressing rule (`bumpRule` /
`pBumpRule`) yields accepted outputs with a strictly increased index. -/
theorem claim_C5_witness :
    (lexerIterNext [zeroRule] (Cursor.fromInput ['a']) = (none, Cursor.fromInput ['a']) ∧
      tokenizeFuel [zeroRule] 3 (Cursor.fromInput ['a']) = ([], Cursor.fromInput ['a'], true)) ∧
    parseFuel (pctxOps Nat) [pZeroRule] 3 (PCtx.new [4]) = ([], PCtx.new [4], true) ∧
    (Cursor.fromInput ['a']).current < (Cursor.mk ['a'] 1 Position.new).current ∧
    (PCtx.new ([4] : List Nat)).current < (PCtx.mk [4] 1 Position.new).current := by
  refine ⟨?_, ?_, ?_, ?_⟩
  · exact (@claim_C5_zero_progress_halt Nat Nat).1 [zeroRule] _ _ 7 2 (by rfl) (by rfl)
  · exact (@claim_C5_zero_progress_halt Nat Nat).2.1
      [pZeroRule] _ _ 7 2 (by rfl) (by rfl) (by rfl)
  · have hprog : ∀ r ∈ [bumpRule], ∀ (c c' : Cursor) (t : Nat),
        r.try_match c = (some t, c') → c.current < c'.current := by
      intro r hr c c' t h
      rw [List.mem_singleton] at hr
      subst hr
      simp only [bumpRule] at h
      injection h with h1 h2
      rw [← h2]
      simp
    exact (@claim_C5_zero_progress_halt Nat Nat).2.2.1 [bumpRule] hprog
      (Cursor.fromInput ['a']) (Cursor.mk ['a'] 1 Position.new) 0 (by rfl)
  · have hprog : ∀ r ∈ [(pBumpRule : ParsingRule (PCtx Nat) Nat Nat)], ∀ (c c' : PCtx Nat) (n : Nat),
        r.try_parse c = (some n, c') → c.current < c'.current := by
      intro r hr c c' n h
      rw [List.mem_singleton] at hr
      subst hr
      simp only [pBumpRule] at h
      injection h with h1 h2
      rw [← h2]
      simp
    exact (@claim_C5_zero_progress_halt Nat Nat).2.2.2 [pBumpRule] hprog
      (PCtx.new [4]) (PCtx.mk [4] 1 Position.new) 0 (by rfl)

/-- Membership in an insertion step. -/
theorem mem_insertRule {Tok : Type} (r x : LexingRule Tok) :
    ∀ l : List (LexingRule Tok), x ∈ insertRule r l ↔ x = r ∨ x ∈ l := by
  intro l
  induction l with
  | nil => simp [insertRule]
  | cons y ys ih =>
    by_cases h : r.priority < y.priority
    · simp only [insertRule, if_pos h, List.mem_cons, ih]
      try tauto
    · simp only [insertRule, if_neg h, List.mem_cons]
      try tauto

/-- The sort keeps exactly the registered rules. -/
theorem mem_sortRules {Tok : Type} (x : LexingRule Tok) :
    ∀ rules : List (LexingRule Tok), x ∈ sortRules rules ↔ x ∈ rules := by
  intro rules
  induction rules with
  | nil => simp [sortRules]
  | cons r rs ih =>
    show x ∈ insertRule r (sortRules rs) ↔ _
    rw [mem_insertRule, ih, List.mem_cons]
    try tauto

/-- Inserting into a descending-priority list keeps it descending. -/
theorem pairwise_insertRule {Tok : Type} (r : LexingRule Tok) :
    ∀ l : List (LexingRule Tok), l.Pairwise (fun a b => b.priority ≤ a.priority) →
      (insertRule r l).Pairwise (fun a b => b.priority ≤ a.priority) := by
  intro l
  induction l with
  | nil =>
    intro _
    simp [insertRule]
  | cons y ys ih =>
    intro h
    rw [List.pairwise_cons] at h
    obtain ⟨hy, hys⟩ := h
    by_cases hlt : r.priority < y.priority
    · simp only [insertRule, if_pos hlt]
      rw [List.pairwise_cons]
      refine ⟨?_, ih hys⟩
      intro z hz
      rw [mem_insertRule] at hz
      rcases hz with rfl | hz
      · omega
      · exact hy z hz
    · simp only [insertRule, if_neg hlt]
      rw [List.pairwise_cons]
      refine ⟨?_, List.Pairwise.cons hy hys⟩
      intro z hz
      rw [List.mem_cons] at hz
      rcases hz with rfl | hz
      · omega
      · have := hy z hz
        omega

/-- The engine's rule order is sorted by descending priority. -/
theorem sortRules_sorted {Tok : Type} (rules : List (LexingRule Tok)) :
    (sortRules rules).Pairwise (fun a b => b.priority ≤ a.priority) := by
  induction rules with
  | nil => simp [sortRules]
  | cons r rs ih => exact pairwise_insertRule r (sortRules rs) ih

/-- How an insertion step interacts with filtering by one priority value. -/
theorem filter_insertRule {Tok : Type} (p : Int) (r : LexingRule Tok) :
    ∀ l : List (LexingRule Tok),
      (insertRule r l).filter (fun x => decide (x.priority = p)) =
        if r.priority = p then r :: l.filter (fun x => decide (x.priority = p))
        else l.filter (fun x => decide (x.priority = p)) := by
  intro l
  induction l with
  | nil =>
    by_cases hp : r.priority = p <;> simp [insertRule, List.filter, hp]
  | cons y ys ih =>
    by_cases hlt : r.priority < y.priority
    · simp only [insertRule, if_pos hlt, List.filter_cons, ih]
      by_cases hyp : y.priority = p
      · have hrp : ¬(r.priority = p) := by omega
        simp [hyp, hrp]
      · by_cases hrp : r.priority = p <;> simp [hyp, hrp]
    · simp only [insertRule, if_neg hlt, List.filter_cons]
      by_cases hrp : r.priority = p <;> simp [hrp]

/-- Stability of the sort: for every priority value, the rules of that
priority appear in the sorted list exactly in registration order. -/
theorem sortRules_stable {Tok : Type} (rules : List (LexingRule Tok)) (p : Int) :
    (sortRules rules).filter (fun x => decide (x.priority = p)) =
      rules.filter (fun x => decide (x.priority = p)) := by
  induction rules with
  | nil => rfl
  | cons r rs ih =>
    show (insertRule r (sortRules rs)).filter _ = _
    rw [filter_insertRule, List.filter_cons]
    by_cases hrp : r.priority = p
    · rw [if_pos hrp, ih]
      simp [hrp]
    · rw [if_neg hrp, ih]
      simp [hrp]

/-- Restoring the pre-attempt checkpoint after a buffer-preserving mutation
reconstructs the original cursor exactly. -/
theorem restore_checkpoint_eq {ctx cm : Cursor} (hb : cm.buffer = ctx.buffer) :
    cursorRestore cm (cursorCheckpoint ctx) = ctx := by
  rcases ctx with ⟨b, cur, pos⟩
  rcases cm with ⟨b2, cur2, pos2⟩
  simp only [cursorRestore, cursorCheckpoint] at hb ⊢
  rw [hb]

/-- If every rule of a list fails on `ctx`, the first-match reference
returns nothing. -/
theorem firstMatchSpec_none {Tok : Type} :
    ∀ (rs : List (LexingRule Tok)) (ctx : Cursor),
      (∀ r ∈ rs, (r.try_match ctx).1 = none) → firstMatchSpec rs ctx = none := by
  intro rs
  induction rs with
  | nil => intro ctx _; rfl
  | cons r rest ih =>
    intro ctx h
    have hr := h r (List.mem_cons_self r rest)
    rcases htm : r.try_match ctx with ⟨res, cm⟩
    rw [htm] at hr
    rcases res with _ | tok
    · simp only [firstMatchSpec, htm]
      exact ih ctx fun r' hr' => h r' (List.mem_cons_of_mem r hr')
    · exact absurd hr (by simp)

/-- The quick-check-filtered slow path computes first-match-wins, assuming
the rules preserve the buffer and the quick-check is sound at the current
context. -/
theorem runSlow_eq_first {Tok : Type} (ch : Char) :
    ∀ (rs : List (LexingRule Tok)) (ctx : Cursor),
      (∀ r ∈ rs, ∀ c : Cursor, (r.try_match c).2.buffer = c.buffer) →
      (∀ r ∈ rs, r.quick_check (some ch) = some false → (r.try_match ctx).1 = none) →
      runSlow (some ch) rs ctx = liftMatch ctx (firstMatchSpec rs ctx) := by
  intro rs
  induction rs with
  | nil => intro ctx _ _; rfl
  | cons r rest ih =>
    intro ctx hpres hsound
    have hpres' := fun r' hr' => hpres r' (List.mem_cons_of_mem r hr')
    have hsound' := fun r' hr' => hsound r' (List.mem_cons_of_mem r hr')
    by_cases hqc : r.quick_check (some ch) = some false
    · have hfail := hsound r (List.mem_cons_self r rest) hqc
      rcases htm : r.try_match ctx with ⟨res, cm⟩
      rw [htm] at hfail
      rcases res with _ | tok
      · simp only [runSlow, if_pos hqc, firstMatchSpec, htm]
        exact ih ctx hpres' hsound'
      · exact absurd hfail (by simp)
    · simp only [runSlow, if_neg hqc, firstMatchSpec]
      rcases htm : r.try_match ctx with ⟨res, cm⟩
      rcases res with _ | tok
      · have hb : cm.buffer = ctx.buffer := by
          have := hpres r (List.mem_cons_self r rest) ctx
          rw [htm] at this
          exact this
        show runSlow (some ch) rest (cursorRestore cm (cursorCheckpoint ctx)) =
          liftMatch ctx (firstMatchSpec rest ctx)
        rw [restore_checkpoint_eq hb]
        exact ih ctx hpres' hsound'
      · rfl

/-- The ASCII-lookup fast path visits exactly the rules the per-attempt
quick-check scan would attempt, in the same order, so both loops coincide on
every context. -/
theorem runIndexed_eq_runSlow {Tok : Type} (rules : List (LexingRule Tok)) (ch : Char) :
    ∀ (tail : List (LexingRule Tok)) (k : Nat) (ctx : Cursor), rules.drop k = tail →
      runIndexed rules (applicableIndicesAux tail k ch) ctx = runSlow (some ch) tail ctx := by
  intro tail
  induction tail with
  | nil => intro k ctx _; rfl
  | cons r rest ih =>
    intro k ctx hdrop
    obtain ⟨hget, hdrop'⟩ := drop_cons_get hdrop
    by_cases hqc : r.quick_check (some ch) = some false
    · have hnn : ¬(r.quick_check (some ch) ≠ some false) := by simpa using hqc
      simp only [applicableIndicesAux, if_neg hnn]
      rw [ih (k + 1) ctx hdrop']
      simp only [runSlow, if_pos hqc]
    · have hnn : r.quick_check (some ch) ≠ some false := hqc
      simp only [applicableIndicesAux, if_pos hnn]
      simp only [runIndexed, hget, runSlow, if_neg hqc]
      rcases htm : r.try_match ctx with ⟨res, cm⟩
      rcases res with _ | tok
      · exact ih (k + 1) (cursorRestore cm (cursorCheckpoint ctx)) hdrop'
      · rfl

/-- If the lookup-construction filter keeps no index, every rule's
quick-check vetoed the character. -/
theorem applicableIndicesAux_nil {Tok : Type} (ch : Char) :
    ∀ (tail : List (LexingRule Tok)) (k : Nat), applicableIndicesAux tail k ch = [] →
      ∀ r ∈ tail, r.quick_check (some ch) = some false := by
  intro tail
  induction tail with
  | nil => intro k _ r hr; exact absurd hr (List.not_mem_nil r)
  | cons r rest ih =>
    intro k h r' hr'
    by_cases hqc : r.quick_check (some ch) ≠ some false
    · simp only [applicableIndicesAux, if_pos hqc] at h
      exact absurd h (by simp)
    · simp only [applicableIndicesAux, if_neg hqc] at h
      rw [List.mem_cons] at hr'
      rcases hr' with rfl | hr'
      · simpa using hqc
      · exact ih (k + 1) h r' hr'

/-- The naive engine of `src/lexer.rs` computes first-match-wins when rules
preserve the buffer. -/
theorem nextTokenNaive_eq_first {Tok : Type} :
    ∀ (rs : List (LexingRule Tok)) (ctx : Cursor),
      (∀ r ∈ rs, ∀ c : Cursor, (r.try_match c).2.buffer = c.buffer) →
      nextTokenNaive rs ctx = liftMatch ctx (firstMatchSpec rs ctx) := by
  intro rs
  induction rs with
  | nil => intro ctx _; rfl
  | cons r rest ih =>
    intro ctx hpres
    simp only [nextTokenNaive, firstMatchSpec]
    rcases htm : r.try_match ctx with ⟨res, cm⟩
    rcases res with _ | tok
    · have hb : cm.buffer = ctx.buffer := by
        have := hpres r (List.mem_cons_self r rest) ctx
        rw [htm] at this
        exact this
      show nextTokenNaive rest (cursorRestore cm (cursorCheckpoint ctx)) =
        liftMatch ctx (firstMatchSpec rest ctx)
      rw [restore_checkpoint_eq hb]
      exact ih ctx fun r' hr' => hpres r' (List.mem_cons_of_mem r hr')
    · rfl

/-- The current (table-based) engine computes first-match-wins on a context
with an available character, under buffer preservation and quick-check
soundness. -/
theorem nextToken_eq_first {Tok : Type} (rules : List (LexingRule Tok)) (ctx : Cursor)
    (ch : Char) (hne : cursorIsEof ctx = false) (hpk : cursorPeek ctx = some ch)
    (hpres : ∀ r ∈ rules, ∀ c : Cursor, (r.try_match c).2.buffer = c.buffer)
    (hsound : ∀ r ∈ rules, r.quick_check (some ch) = some false →
      (r.try_match ctx).1 = none) :
    nextToken rules ctx = liftMatch ctx (firstMatchSpec rules ctx) := by
  unfold nextToken
  rw [if_neg (by rw [hne]; exact Bool.false_ne_true)]
  simp only [hpk]
  by_cases ha : ch.toNat < 128
  · rw [if_pos ha]
    unfold asciiLookup
    rcases hl : applicableIndicesAux rules 0 ch with _ | ⟨i, idxs⟩
    · simp only [hl, List.isEmpty_nil, if_pos]
      have hall : ∀ r ∈ rules, (r.try_match ctx).1 = none := fun r hr =>
        hsound r hr (applicableIndicesAux_nil ch rules 0 hl r hr)
      rw [firstMatchSpec_none rules ctx hall]
      rfl
    · simp only [hl, List.isEmpty_cons, Bool.false_eq_true, if_false]
      rw [← hl, runIndexed_eq_runSlow rules ch rules 0 ctx (List.drop_zero rules)]
      exact runSlow_eq_first ch rules ctx hpres hsound
  · rw [if_neg ha]
    exact runSlow_eq_first ch rules ctx hpres hsound

/-- C1: the engine order built by `Lexer::new` is the registration list
stable-sorted by descending priority (descending `Pairwise` order; ties keep
registration order, expressed by per-priority filters), and on a context
with an available character `next_token` returns exactly the output of the
first rule in that order whose `try_match` succeeds — no later rule can
influence the result (first-match-wins, not longest-match).  Hypotheses:
rules mutate only through the cursor API (buffer preserved) and honour the
documented `quick_check` contract (`Some(false)` only when `try_match` would
fail). -/
theorem claim_C1_priority_first_match {Tok : Type} (rules : List (LexingRule Tok))
    (ctx : Cursor) (ch : Char)
    (hne : cursorIsEof ctx = false) (hpk : cursorPeek ctx = some ch)
    (hpres : ∀ r ∈ rules, ∀ c : Cursor, (r.try_match c).2.buffer = c.buffer)
    (hsound : ∀ r ∈ rules, r.quick_check (some ch) = some false →
      (r.try_match ctx).1 = none) :
    (Lexer.new rules).rules.Pairwise (fun a b => b.priority ≤ a.priority) ∧
    (∀ p : Int, (Lexer.new rules).rules.filter (fun x => decide (x.priority = p)) =
      rules.filter (fun x => decide (x.priority = p))) ∧
    nextToken (Lexer.new rules).rules ctx =
      liftMatch ctx (firstMatchSpec (Lexer.new rules).rules ctx) := by
  refine ⟨sortRules_sorted rules, fun p => sortRules_stable rules p, ?_⟩
  exact nextToken_eq_first (sortRules rules) ctx ch hne hpk
    (fun r hr => hpres r ((mem_sortRules r rules).mp hr))
    (fun r hr => hsound r ((mem_sortRules r rules).mp hr))

/-- Witness for C1: the engine applied to a concrete one-rule lexer on input
`a`, with the hypotheses discharged concretely. -/
theorem claim_C1_witness :
    nextToken (Lexer.new [bumpRule]).rules (Cursor.fromInput ['a']) =
      liftMatch (Cursor.fromInput ['a'])
        (firstMatchSpec (Lexer.new [bumpRule]).rules (Cursor.fromInput ['a'])) ∧
    (Lexer.new [bumpRule]).rules.filter (fun x => decide (x.priority = 0)) =
      [bumpRule].filter (fun x => decide (x.priority = 0)) := by
  have hpres : ∀ r ∈ [bumpRule], ∀ c : Cursor, (r.try_match c).2.buffer = c.buffer := by
    intro r hr c
    rw [List.mem_singleton] at hr
    subst hr
    rfl
  have hsound : ∀ r ∈ [bumpRule], r.quick_check (some 'a') = some false →
      (r.try_match (Cursor.fromInput ['a'])).1 = none := by
    intro r hr hq
    rw [List.mem_singleton] at hr
    subst hr
    exact absurd hq (by simp [bumpRule])
  have h := claim_C1_priority_first_match [bumpRule] (Cursor.fromInput ['a']) 'a'
    (by decide) (by decide) hpres hsound
  exact ⟨h.2.2, h.2.1 0⟩

/-- C4 counterexample: the claim asserts the table-based and naive engines
agree on every context state (under quick-check soundness), but at EOF the
table engine returns `None` before trying any rule while the naive engine
still tries every rule: with the repository's own EOF rule the naive engine
produces a token and the table engine does not.  (The `eofTokRule` hypotheses
of the claim are satisfied: its quick-check never returns `Some(false)` and
it never moves the cursor.) -/
theorem claim_C4_counterexample :
    (nextToken [eofTokRule] (Cursor.fromInput [])).1 = none ∧
    (nextTokenNaive [eofTokRule] (Cursor.fromInput [])).1 = some 0 := by
  exact ⟨rfl, rfl⟩

/-- C4 amended: on every context state that is not at EOF and has a current
character, the ASCII-lookup-table `next_token` and the naive
try-every-rule variant return the same result and leave the same context
(assuming buffer preservation and quick-check soundness); at EOF the two
variants may differ (see the counterexample). -/
theorem claim_C4_table_matches_naive {Tok : Type} (rules : List (LexingRule Tok))
    (ctx : Cursor) (ch : Char)
    (hne : cursorIsEof ctx = false) (hpk : cursorPeek ctx = some ch)
    (hpres : ∀ r ∈ rules, ∀ c : Cursor, (r.try_match c).2.buffer = c.buffer)
    (hsound : ∀ r ∈ rules, r.quick_check (some ch) = some false →
      (r.try_match ctx).1 = none) :
    nextToken rules ctx = nextTokenNaive rules ctx := by
  rw [nextToken_eq_first rules ctx ch hne hpk hpres hsound,
    nextTokenNaive_eq_first rules ctx hpres]

/-- Witness for C4 (amended): the two engines agree on a concrete non-EOF
context. -/
theorem claim_C4_witness :
    nextToken [bumpRule] (Cursor.fromInput ['a']) =
      nextTokenNaive [bumpRule] (Cursor.fromInput ['a']) := by
  have hpres : ∀ r ∈ [bumpRule], ∀ c : Cursor, (r.try_match c).2.buffer = c.buffer := by
    intro r hr c
    rw [List.mem_singleton] at hr
    subst hr
    rfl
  have hsound : ∀ r ∈ [bumpRule], r.quick_check (some 'a') = some false →
      (r.try_match (Cursor.fromInput ['a'])).1 = none := by
    intro r hr hq
    rw [List.mem_singleton] at hr
    subst hr
    exact absurd hq (by simp [bumpRule])
  exact claim_C4_table_matches_naive [bumpRule] (Cursor.fromInput ['a']) 'a'
    (by decide) (by decide) hpres hsound

/-- C7: with numbers as atoms, `+` bound `(10, 11)` and `*` bound
`(20, 21)`, `parse_pratt` at minimum binding power `0` on the token stream
of `1+2*3` yields `Binary(+, 1, Binary(*, 2, 3))`; moreover the engine's
infix loop stops — returning the current left expression with the context
untouched — whenever the peeked token is absent, has no infix binding, or
its left binding power is below the current minimum. -/
theorem claim_C7_pratt_precedence :
    (parsePratt (pctxOps CalcTok) calcCfg 10 (PCtx.new calcToks) 0).1 =
      some (.bin .add (.num 1) (.bin .mul (.num 2) (.num 3))) ∧
    (∀ (Ctx Tok Ast : Type) (ops : ParseCtxOps Ctx Tok) (cfg : PrattCfg Ctx Tok Ast)
      (fuel : Nat) (left : Ast) (ctx : Ctx) (minBp : Nat),
      (ops.peek ctx = none ∨
        (∃ t, ops.peek ctx = some t ∧ cfg.ledPower t = none) ∨
        (∃ t l r, ops.peek ctx = some t ∧ cfg.ledPower t = some (l, r) ∧ l < minBp)) →
      prattLoop ops cfg (fuel + 1) left ctx minBp = (some left, ctx)) := by
  constructor
  · rfl
  · intro Ctx Tok Ast ops cfg fuel left ctx minBp h
    rcases h with h | ⟨t, hpk, hled⟩ | ⟨t, l, r, hpk, hled, hlt⟩
    · simp only [prattLoop, h]
    · simp only [prattLoop, hpk, hled]
    · simp only [prattLoop, hpk, hled]
      rw [if_pos hlt]

/-- Witness for C7: the concrete `1+2*3` tree together with the stop rule
applied at a concrete empty context (no peeked token). -/
theorem claim_C7_witness :
    (parsePratt (pctxOps CalcTok) calcCfg 10 (PCtx.new calcToks) 0).1 =
      some (.bin .add (.num 1) (.bin .mul (.num 2) (.num 3))) ∧
    prattLoop (pctxOps CalcTok) calcCfg 1 (CalcExpr.num 7) (PCtx.new []) 0 =
      (some (CalcExpr.num 7), PCtx.new []) :=
  ⟨claim_C7_pratt_precedence.1,
    claim_C7_pratt_precedence.2 (PCtx CalcTok) CalcTok CalcExpr (pctxOps CalcTok) calcCfg
      0 (CalcExpr.num 7) (PCtx.new []) 0 (Or.inl (by rfl))⟩

/-- C8: whenever the consumer asks for a token (`NeedToken`) and the
producer's outbound response to the forwarded `RequestToken` is
`Abort(reason)` or `Blocked(reason)`, the driver delivers exactly one
`Abort` to the consumer (the signal log from that point is `[Abort r]`),
stops the loop, and returns exactly the nodes collected before that point
(the accumulator is returned unchanged). -/
theorem claim_C8_abort_propagation {σL σP Tok Ast : Type}
    (L : StreamMachine σL Tok Ast) (P : StreamMachine σP Tok Ast)
    (Pfinish : σP → List Ast × σP) (fuel : Nat) (ls : σL) (ps ps1 : σP)
    (acc : List Ast) (n : Nat) (r : String)
    (h1 : P.next_signal ps = (some (.NeedToken n), ps1))
    (h2 : (L.next_signal (L.handle_signal ls (.RequestToken n))).1 = some (.Abort r) ∨
      (L.next_signal (L.handle_signal ls (.RequestToken n))).1 = some (.Blocked r)) :
    runPipe L P Pfinish (fuel + 1) ls ps acc = (acc, [.Abort r]) := by
  rcases hl : L.next_signal (L.handle_signal ls (.RequestToken n)) with ⟨sig, ls2⟩
  rw [hl] at h2
  simp only [runPipe, h1]
  rcases h2 with h2 | h2 <;> simp only at h2 <;> rw [h2] at hl <;> simp only [hl]

/-- Witness for C8: a producer that aborts on the first request and a
consumer that always asks for a token. -/
theorem claim_C8_witness :
    @runPipe Unit Unit Nat Nat
      ⟨fun _ => (some (.Abort "x"), ()), fun _ _ => ()⟩
      ⟨fun _ => (some (.NeedToken 1), ()), fun _ _ => ()⟩
      (fun _ => ([], ())) 1 () () [] = ([], [.Abort "x"]) :=
  claim_C8_abort_propagation _ _ _ 0 () () () [] 1 "x" rfl (Or.inl rfl)

/-- C3 (code bug): on the two-character input `ab`, with one lexer rule that
emits each character as a token and one parser rule that emits each token as
a node, `BatchPipeline::run` yields both nodes while `StreamingPipeline::run`
over the same rules yields none: the consumer's `handle_signal(SupplyToken)`
calls `TokenConsumer::push_token`, whose drained node vector is discarded,
so every node produced while a token is being supplied is lost and the
pipelines disagree. -/
theorem claim_C3_pipeline_divergence :
    batchRun [charTokRule] [tokNodeRule (pctxOps Char)] ['a', 'b'] 10 = ['a', 'b'] ∧
    streamRun [charTokRule] [tokNodeRule (spctxOps Char)] ['a', 'b'] 10 = [] := by
  exact ⟨rfl, rfl⟩

/-- `maybe_prune` preserves the window-safety invariant as long as the
committed index has not passed `K` and the cursor is at most `W/2` past `K`;
it also keeps the committed index, the window size and the source, and moves
the absolute cursor to `max(token_index, committed_index)`. -/
theorem maybePrune_inv {Tok : Type} (K : Nat) (c : LazyCtx Tok)
    (hInv : LazyInv K c) (hcom : c.committed_index ≤ K)
    (htok : lazyTokenIndex c ≤ K + c.window_size / 2) :
    LazyInv K (maybePrune c) ∧
    (maybePrune c).window_size = c.window_size ∧
    (maybePrune c).committed_index = c.committed_index ∧
    lazyTokenIndex (maybePrune c) = max (lazyTokenIndex c) c.committed_index := by
  obtain ⟨hb, hc, hk⟩ := hInv
  rcases c with ⟨src, buf, base, cur, pos, win, com⟩
  simp only [LazyInv, lazyTokenIndex, maybePrune, List.length_drop] at *
  split_ifs with h1 <;>
    refine ⟨⟨?_, ?_, ?_⟩, rfl, rfl, ?_⟩ <;> dsimp only <;>
    (try simp only [List.length_drop]) <;> omega

/-- `ensure_buffer` only grows the buffer: base, cursor, window and
committed index are unchanged. -/
theorem ensureBuffer_state {Tok : Type} (c : LazyCtx Tok) (rel : Nat) :
    (ensureBuffer c rel).2.base_index = c.base_index ∧
    (ensureBuffer c rel).2.cursor_offset = c.cursor_offset ∧
    c.buffer.length ≤ (ensureBuffer c rel).2.buffer.length ∧
    (ensureBuffer c rel).2.window_size = c.window_size ∧
    (ensureBuffer c rel).2.committed_index = c.committed_index := by
  rcases c with ⟨src, buf, base, cur, pos, win, com⟩
  simp only [ensureBuffer, List.length_append, List.length_take]
  split_ifs <;> simp

/-- Unconditionally, `maybe_prune` moves the absolute cursor to
`max(token_index, committed_index)` and keeps the committed index and the
window size. -/
theorem maybePrune_token {Tok : Type} (c : LazyCtx Tok) :
    lazyTokenIndex (maybePrune c) = max (lazyTokenIndex c) c.committed_index ∧
    (maybePrune c).committed_index = c.committed_index ∧
    (maybePrune c).window_size = c.window_size := by
  rcases c with ⟨src, buf, base, cur, pos, win, com⟩
  simp only [maybePrune, lazyTokenIndex]
  split_ifs with h1 <;> refine ⟨?_, rfl, rfl⟩ <;> dsimp only <;> omega

/-- Every lazy-context operation leaves the window size unchanged. -/
theorem lazyStep_window {Tok : Type} (c c' : LazyCtx Tok) (op : LazyOp)
    (h : lazyStep c op = some c') : c'.window_size = c.window_size := by
  cases op with
  | adv =>
    simp only [lazyStep, Option.some.injEq] at h
    subst h
    unfold lazyAdvance
    rcases hget : (ensureBuffer c 0).2.buffer.get? (ensureBuffer c 0).2.cursor_offset with _ | t
    · simp only [hget]
      exact (ensureBuffer_state c 0).2.2.2.1
    · simp only [hget]
      rw [(maybePrune_token _).2.2]
      exact (ensureBuffer_state c 0).2.2.2.1
  | commit =>
    simp only [lazyStep, Option.some.injEq] at h
    subst h
    exact (maybePrune_token _).2.2
  | peekAt n =>
    simp only [lazyStep, Option.some.injEq] at h
    subst h
    exact (ensureBuffer_state c n).2.2.2.1
  | restoreTo cp =>
    simp only [lazyStep, lazyRestore] at h
    by_cases h1 : cp.index < c.base_index
    · rw [if_pos h1] at h
      exact absurd h (by simp)
    · rw [if_neg h1] at h
      by_cases h2 : c.buffer.length < cp.index - c.base_index
      · rw [if_pos h2] at h
        exact absurd h (by simp)
      · rw [if_neg h2] at h
        injection h with h3
        rw [← h3]

/-- One caller operation preserves the window-safety invariant, provided the
state after the operation still satisfies the claim's side conditions (the
committed index has not passed `K`, and the cursor is at most half a window
past `K`). -/
theorem lazyStep_inv {Tok : Type} (K : Nat) (c c' : LazyCtx Tok) (op : LazyOp)
    (h : lazyStep c op = some c') (hInv : LazyInv K c)
    (hcom' : c'.committed_index ≤ K)
    (htok' : lazyTokenIndex c' ≤ K + c'.window_size / 2) :
    LazyInv K c' := by
  obtain ⟨hb, hc, hk⟩ := hInv
  cases op with
  | adv =>
    simp only [lazyStep, Option.some.injEq] at h
    subst h
    obtain ⟨e1, e2, e3, e4, e5⟩ := ensureBuffer_state c 0
    rcases hget : (ensureBuffer c 0).2.buffer.get? (ensureBuffer c 0).2.cursor_offset with _ | t
    · have hadv : (lazyAdvance c).2 = (ensureBuffer c 0).2 := by
        simp only [lazyAdvance, hget]
      rw [hadv]
      exact ⟨e1 ▸ hb, e2 ▸ le_trans hc e3, by omega⟩
    · have hlt : (ensureBuffer c 0).2.cursor_offset < (ensureBuffer c 0).2.buffer.length := by
        rw [List.get?_eq_getElem?] at hget
        exact (List.getElem?_eq_some.mp hget).1
      have hadv : (lazyAdvance c).2 =
          maybePrune { (ensureBuffer c 0).2 with
            cursor_offset := (ensureBuffer c 0).2.cursor_offset + 1 } := by
        simp only [lazyAdvance, hget]
      rw [hadv] at hcom' htok' ⊢
      have hPT := maybePrune_token
        { (ensureBuffer c 0).2 with cursor_offset := (ensureBuffer c 0).2.cursor_offset + 1 }
      rw [hPT.2.1] at hcom'
      rw [hPT.1, hPT.2.2] at htok'
      refine (maybePrune_inv K _ ⟨?_, ?_, ?_⟩ hcom' ?_).1
      · simp only
        omega
      · simp only
        omega
      · simp only
        omega
      · simp only [lazyTokenIndex] at htok' ⊢
        simp only at hcom' htok' ⊢
        omega
  | commit =>
    simp only [lazyStep, Option.some.injEq] at h
    subst h
    have heq : lazyCommit c =
        maybePrune { c with committed_index := max c.committed_index (lazyTokenIndex c) } := rfl
    rw [heq] at hcom' htok' ⊢
    have hPT := maybePrune_token
      { c with committed_index := max c.committed_index (lazyTokenIndex c) }
    rw [hPT.2.1] at hcom'
    rw [hPT.1, hPT.2.2] at htok'
    refine (maybePrune_inv K _ ⟨?_, ?_, ?_⟩ hcom' ?_).1
    · exact hb
    · exact hc
    · exact hk
    · simp only [lazyTokenIndex] at htok' ⊢
      simp only at hcom' htok' ⊢
      omega
  | peekAt n =>
    simp only [lazyStep, Option.some.injEq] at h
    subst h
    obtain ⟨e1, e2, e3, e4, e5⟩ := ensureBuffer_state c n
    exact ⟨e1 ▸ hb, e2 ▸ le_trans hc e3, by omega⟩
  | restoreTo cp =>
    simp only [lazyStep, lazyRestore] at h
    by_cases h1 : cp.index < c.base_index
    · rw [if_pos h1] at h
      exact absurd h (by simp)
    · rw [if_neg h1] at h
      by_cases h2 : c.buffer.length < cp.index - c.base_index
      · rw [if_pos h2] at h
        exact absurd h (by simp)
      · rw [if_neg h2] at h
        injection h with h3
        rw [← h3]
        exact ⟨hb, by simp only; omega, by simp only; omega⟩

/-- An operation sequence whose every intermediate state keeps the committed
index at most `K` and the cursor at most half a window past `K` preserves
the window-safety invariant end to end, and never changes the window
size. -/
theorem runLazyOps_inv {Tok : Type} (K : Nat) :
    ∀ (ops : List LazyOp) (c s1 : LazyCtx Tok),
      LazyInv K c → runLazyOps ops c = some s1 →
      (∀ pre suf, ops = pre ++ suf → ∀ s' : LazyCtx Tok, runLazyOps pre c = some s' →
        s'.committed_index ≤ K ∧ lazyTokenIndex s' ≤ K + s'.window_size / 2) →
      LazyInv K s1 := by
  intro ops
  induction ops with
  | nil =>
    intro c s1 hInv hrun _
    simp only [runLazyOps, Option.some.injEq] at hrun
    subst hrun
    exact hInv
  | cons op rest ih =>
    intro c s1 hInv hrun hconds
    rcases hstep : lazyStep c op with _ | c1
    · rw [runLazyOps, hstep] at hrun
      exact absurd hrun (by simp)
    · rw [runLazyOps, hstep] at hrun
      have hc1run : runLazyOps [op] c = some c1 := by
        simp [runLazyOps, hstep]
      have hc1conds := hconds [op] rest rfl c1 hc1run
      have hInv1 := lazyStep_inv K c c1 op hstep hInv hc1conds.1 hc1conds.2
      refine ih c1 s1 hInv1 hrun ?_
      intro pre suf heq s' hrun'
      refine hconds (op :: pre) suf (by rw [heq]; rfl) s' ?_
      rw [runLazyOps, hstep]
      exact hrun'

/-- C6: take a checkpoint on a `LazyContext` (its index is the current
absolute token index); run any sequence of context operations during which
the committed index never passes the checkpoint's index and the cursor never
moves more than `window_size / 2` past it.  Then the fatal
backtrack-window-exceeded branch is not hit (`checkpoint.index >=
base_index` still holds), `restore` succeeds, and afterwards `token_index()`
equals the checkpoint's index. -/
theorem claim_C6_window_safety {Tok : Type} (s0 s1 : LazyCtx Tok) (ops : List LazyOp)
    (hcur : s0.cursor_offset ≤ s0.buffer.length)
    (hrun : runLazyOps ops s0 = some s1)
    (hconds : ∀ pre suf, ops = pre ++ suf → ∀ s' : LazyCtx Tok,
      runLazyOps pre s0 = some s' →
      s'.committed_index ≤ (lazyCheckpoint s0).index ∧
      lazyTokenIndex s' ≤ (lazyCheckpoint s0).index + s'.window_size / 2) :
    s1.base_index ≤ (lazyCheckpoint s0).index ∧
    ∃ s2, lazyRestore s1 (lazyCheckpoint s0) = some s2 ∧
      lazyTokenIndex s2 = (lazyCheckpoint s0).index := by
  have hInv0 : LazyInv (lazyCheckpoint s0).index s0 := by
    refine ⟨?_, hcur, ?_⟩
    · show s0.base_index ≤ lazyTokenIndex s0
      simp only [lazyTokenIndex]
      omega
    · show lazyTokenIndex s0 ≤ s0.base_index + s0.buffer.length
      simp only [lazyTokenIndex]
      omega
  obtain ⟨hb, hc, hk⟩ := runLazyOps_inv (lazyCheckpoint s0).index ops s0 s1 hInv0 hrun hconds
  refine ⟨hb, ?_⟩
  unfold lazyRestore
  rw [if_neg (by omega), if_neg (by omega)]
  refine ⟨_, rfl, ?_⟩
  simp only [lazyTokenIndex]
  omega

/-- Witness for C6: a window-4 lazy context over two tokens, one `advance`
after the checkpoint, then a successful restore (the conclusion instantiated
is the no-fatal-branch part). -/
theorem claim_C6_witness :
    (⟨[20], [10], 0, 1, Position.new, 4, 0⟩ : LazyCtx Nat).base_index ≤
      (lazyCheckpoint (LazyCtx.new ([10, 20] : List Nat) 4)).index := by
  refine (claim_C6_window_safety (LazyCtx.new ([10, 20] : List Nat) 4)
    (⟨[20], [10], 0, 1, Position.new, 4, 0⟩ : LazyCtx Nat) [LazyOp.adv]
    (by decide) (by rfl) ?_).1
  intro pre suf heq s' hrun'
  cases pre with
  | nil =>
    simp only [runLazyOps, Option.some.injEq] at hrun'
    subst hrun'
    exact ⟨by decide, by decide⟩
  | cons op2 pre' =>
    injection heq with h1 h2
    subst h1
    have hnil : pre' = [] := (List.append_eq_nil.mp h2.symm).1
    subst hnil
    have hx := hrun'
    rw [show runLazyOps [LazyOp.adv] (LazyCtx.new ([10, 20] : List Nat) 4) =
      some (⟨[20], [10], 0, 1, Position.new, 4, 0⟩ : LazyCtx Nat) from rfl] at hx
    injection hx with hx2
    subst hx2
    exact ⟨by decide, by decide⟩
